import Mathlib

/-!
Verification of the FormPure deduplication core.

Shallow embedding of the repository's similarity and deduplication code:
`core/similarity.py` (text normalizer, edit-distance metric, token-set
metric), `core/deduplication.py` (exact dedup, the O(n²) grouping engine,
the hybrid strategy dispatcher) and `core/model_inference.py` (the model
service's error handling).

Conventions of the embedding:
* Python floats are modelled as exact rationals (`ℚ`); all scores that the
  code computes are quotients of machine integers, so the arithmetic
  identities claimed by the specification are stated over `ℚ`.
* Python strings are `String` (processed as `List Char`); the regular
  expression classes `\w` / `\s` of `preprocess_text` are modelled by
  `isWordChar` / `isSpaceChar`.
* The external jieba segmenter is a parameter `seg : String → List String`;
  every theorem about token-set similarity holds for an arbitrary segmenter.
* The external embedding model is a parameter
  `model : String → String → Option ℚ`; `none` models the Python call
  raising an exception, which the grouping loop catches.
* A pandas `DataFrame` is a column list plus a list of rows (association
  lists from column name to cell text); row labels of a freshly read table
  are the positions `0, 1, 2, …`, so `df.index[idx] = idx` and dropping by
  label is dropping by position.
-/

/-- Character class of the regex `\w` used by `preprocess_text`
(alphanumeric or underscore). -/
def isWordChar (c : Char) : Bool := c.isAlphanum || c = '_'

/-- Character class of the regex `\s` used by `preprocess_text`. -/
def isSpaceChar (c : Char) : Bool := c.isWhitespace

/-- Python `str.strip()` : drop whitespace at both ends. -/
def stripChars (l : List Char) : List Char :=
  ((l.dropWhile isSpaceChar).reverse.dropWhile isSpaceChar).reverse

/-- Embedding of `SimilarityCalculator.preprocess_text` on character lists:
strip, then (optionally) delete every character matching `[^\w\s]`, then
(optionally) delete every whitespace character (`re.sub(r'\s+', '')`). -/
def preprocessChars (l : List Char) (removePunctuation : Bool := true)
    (removeSpaces : Bool := true) : List Char :=
  let t := stripChars l
  let t := if removePunctuation then t.filter (fun c => isWordChar c || isSpaceChar c) else t
  if removeSpaces then t.filter (fun c => !isSpaceChar c) else t

/-- Embedding of `SimilarityCalculator.preprocess_text` on strings. -/
def preprocess_text (s : String) (removePunctuation : Bool := true)
    (removeSpaces : Bool := true) : String :=
  ⟨preprocessChars s.toList removePunctuation removeSpaces⟩

/-- Entry `matrix[i, j]` of the dynamic-programming matrix of
`SimilarityCalculator.levenshtein_distance`: first row `matrix[0, j] = j`,
first column `matrix[i, 0] = i`, and for `i, j ≥ 1` either the diagonal on
equal characters or `1 +` the minimum of the delete / insert / substitute
predecessors. -/
def levMat (s1 s2 : List Char) : Nat → Nat → Nat
  | 0, j => j
  | i + 1, 0 => i + 1
  | i + 1, j + 1 =>
    if s1.getD i ' ' = s2.getD j ' ' then levMat s1 s2 i j
    else
      min (levMat s1 s2 i (j + 1) + 1) (min (levMat s1 s2 (i + 1) j + 1) (levMat s1 s2 i j + 1))
termination_by i j => (i, j)

/-- Embedding of `SimilarityCalculator.levenshtein_distance`: preprocess
both inputs, handle the empty cases, then evaluate the full DP matrix. -/
def levenshtein_distance (str1 str2 : String) : Nat :=
  let s1 := preprocessChars str1.toList
  let s2 := preprocessChars str2.toList
  if s1.length = 0 then s2.length
  else if s2.length = 0 then s1.length
  else levMat s1 s2 s1.length s2.length

/-- Embedding of `SimilarityCalculator.levenshtein_similarity`: preprocess,
special-case empty strings, else `1 - distance / max(len, len)`.  (As in the
source, `levenshtein_distance` preprocesses its arguments a second time;
preprocessing is idempotent, see `preprocessChars_idem`.) -/
def levenshtein_similarity (str1 str2 : String) : ℚ :=
  let p1 := preprocessChars str1.toList
  let p2 := preprocessChars str2.toList
  if p1.length = 0 ∧ p2.length = 0 then 1
  else if p1.length = 0 ∨ p2.length = 0 then 0
  else
    let d := levenshtein_distance ⟨p1⟩ ⟨p2⟩
    1 - (d : ℚ) / ((max p1.length p2.length : ℕ) : ℚ)

/-- Embedding of `SimilarityCalculator.word_based_similarity` (with
`use_chinese_segment = True`), parametrised by the external segmenter
`seg` (jieba): preprocess keeping spaces, special-case empty strings, then
the Jaccard coefficient of the two token sets. -/
def word_based_similarity (seg : String → List String) (str1 str2 : String) : ℚ :=
  let p1 := preprocessChars str1.toList true false
  let p2 := preprocessChars str2.toList true false
  if p1 = [] ∧ p2 = [] then 1
  else if p1 = [] ∨ p2 = [] then 0
  else
    let w1 := (seg ⟨p1⟩).toFinset
    let w2 := (seg ⟨p2⟩).toFinset
    let inter := (w1 ∩ w2).card
    let uni := (w1 ∪ w2).card
    if uni = 0 then 0 else (inter : ℚ) / (uni : ℚ)

/-- Embedding of `calculate_basic_similarity` from `core/deduplication.py`. -/
def calculate_basic_similarity (seg : String → List String)
    (method text1 text2 : String) : ℚ :=
  if method = "levenshtein" then levenshtein_similarity text1 text2
  else if method = "word_based" then word_based_similarity seg text1 text2
  else levenshtein_similarity text1 text2

/-! ### Basic facts about the normalizer and the edit-distance matrix -/

theorem dropWhile_eq_self_of_forall {p : Char → Bool} {l : List Char}
    (h : ∀ c ∈ l, p c = false) : l.dropWhile p = l := by
  cases l with
  | nil => rfl
  | cons a t => simp [List.dropWhile_cons, h a (by simp)]

theorem stripChars_eq_self {l : List Char}
    (h : ∀ c ∈ l, isSpaceChar c = false) : stripChars l = l := by
  unfold stripChars
  rw [dropWhile_eq_self_of_forall h, dropWhile_eq_self_of_forall, List.reverse_reverse]
  intro c hc
  exact h c (List.mem_reverse.mp hc)

theorem preprocessChars_def (l : List Char) :
    preprocessChars l =
      ((stripChars l).filter (fun c => isWordChar c || isSpaceChar c)).filter
        (fun c => !isSpaceChar c) := rfl

theorem preprocessChars_not_space {l : List Char} {c : Char}
    (hc : c ∈ preprocessChars l) : isSpaceChar c = false := by
  rw [preprocessChars_def] at hc
  have := List.of_mem_filter hc
  simpa using this

theorem preprocessChars_word {l : List Char} {c : Char}
    (hc : c ∈ preprocessChars l) : (isWordChar c || isSpaceChar c) = true := by
  rw [preprocessChars_def] at hc
  have hm : c ∈ (stripChars l).filter (fun c => isWordChar c || isSpaceChar c) :=
    List.mem_of_mem_filter hc
  have := List.of_mem_filter hm
  simpa using this

/-- Normalization is idempotent. -/
theorem preprocessChars_idem (l : List Char) :
    preprocessChars (preprocessChars l) = preprocessChars l := by
  conv_lhs => rw [preprocessChars_def]
  rw [stripChars_eq_self (fun c hc => preprocessChars_not_space hc)]
  rw [List.filter_eq_self.mpr (fun c hc => preprocessChars_word hc)]
  rw [List.filter_eq_self.mpr (fun c hc => by simp [preprocessChars_not_space hc])]

/-- Every entry of the DP matrix is bounded by the larger coordinate. -/
theorem levMat_le_max (s1 s2 : List Char) :
    ∀ i j, levMat s1 s2 i j ≤ max i j := by
  intro i
  induction i with
  | zero => intro j; simp [levMat]
  | succ i ih =>
    intro j
    induction j with
    | zero => simp [levMat]
    | succ j ihj =>
      rw [levMat]
      by_cases h : s1.getD i ' ' = s2.getD j ' '
      · simp only [if_pos h]
        exact le_trans (ih j) (by omega)
      · simp only [if_neg h]
        have h3 := ih j
        omega

/-- A zero entry of the DP matrix means the two prefixes coincide. -/
theorem levMat_eq_zero (s1 s2 : List Char) :
    ∀ i j, i ≤ s1.length → j ≤ s2.length → levMat s1 s2 i j = 0 →
      s1.take i = s2.take j := by
  intro i
  induction i with
  | zero =>
    intro j _ _ h
    simp [levMat] at h
    simp [h]
  | succ i ih =>
    intro j hi hj h
    cases j with
    | zero => simp [levMat] at h
    | succ j =>
      rw [levMat] at h
      by_cases hc : s1.getD i ' ' = s2.getD j ' '
      · simp only [if_pos hc] at h
        have hpre := ih j (by omega) (by omega) h
        have h1 : i < s1.length := by omega
        have h2 : j < s2.length := by omega
        rw [List.take_succ, List.take_succ, hpre]
        congr 1
        rw [List.getElem?_eq_getElem h1, List.getElem?_eq_getElem h2]
        have e1 : s1.getD i ' ' = s1[i] := by
          simp [List.getD_eq_getElem?_getD, List.getElem?_eq_getElem h1]
        have e2 : s2.getD j ' ' = s2[j] := by
          simp [List.getD_eq_getElem?_getD, List.getElem?_eq_getElem h2]
        rw [e1, e2] at hc
        simp [hc]
      · simp only [if_neg hc] at h
        omega

theorem toList_mk (l : List Char) : (⟨l⟩ : String).toList = l := rfl

theorem levenshtein_distance_mk {p1 p2 : List Char}
    (h1 : preprocessChars p1 = p1) (h2 : preprocessChars p2 = p2) :
    levenshtein_distance ⟨p1⟩ ⟨p2⟩ =
      if p1.length = 0 then p2.length
      else if p2.length = 0 then p1.length
      else levMat p1 p2 p1.length p2.length := by
  simp only [levenshtein_distance, toList_mk, h1, h2]

/-- Closed form of `levenshtein_similarity`: for all inputs it equals
`1 - distance / max(len, len)` over the normalized strings (in `ℚ`, the
both-empty case gives `1 - 0/0 = 1`, agreeing with the early return). -/
theorem levenshtein_similarity_eq (str1 str2 : String) :
    levenshtein_similarity str1 str2 =
      1 - (levMat (preprocessChars str1.toList) (preprocessChars str2.toList)
            (preprocessChars str1.toList).length (preprocessChars str2.toList).length : ℚ) /
          ((max (preprocessChars str1.toList).length (preprocessChars str2.toList).length : ℕ) : ℚ) := by
  simp only [levenshtein_similarity,
    levenshtein_distance_mk (preprocessChars_idem _) (preprocessChars_idem _)]
  generalize preprocessChars str1.toList = p1
  generalize preprocessChars str2.toList = p2
  by_cases h1 : p1.length = 0
  · by_cases h2 : p2.length = 0
    · rw [if_pos ⟨h1, h2⟩]
      rw [List.length_eq_zero.mp h1, List.length_eq_zero.mp h2]
      simp [levMat]
    · rw [if_neg (by tauto), if_pos (Or.inl h1)]
      have hl : levMat p1 p2 0 p2.length = p2.length := by simp [levMat]
      rw [h1, hl, Nat.max_eq_right (Nat.zero_le _)]
      rw [div_self (by exact_mod_cast h2)]
      ring
  · by_cases h2 : p2.length = 0
    · rw [if_neg (by tauto), if_pos (Or.inr h2)]
      have hl : levMat p1 p2 p1.length 0 = p1.length := by
        cases hp : p1.length <;> simp [levMat]
      rw [h2, hl, Nat.max_eq_left (Nat.zero_le _)]
      rw [div_self (by exact_mod_cast h1)]
      ring
    · rw [if_neg (by tauto), if_neg (by tauto), if_neg h1, if_neg h2]

/-- The edit-distance similarity score is always between 0 and 1. -/
theorem levenshtein_similarity_bounds (str1 str2 : String) :
    0 ≤ levenshtein_similarity str1 str2 ∧ levenshtein_similarity str1 str2 ≤ 1 := by
  rw [levenshtein_similarity_eq]
  generalize preprocessChars str1.toList = p1
  generalize preprocessChars str2.toList = p2
  have hle := levMat_le_max p1 p2 p1.length p2.length
  by_cases hM : max p1.length p2.length = 0
  · rw [hM]
    norm_num
  · have hMpos : (0 : ℚ) < ((max p1.length p2.length : ℕ) : ℚ) := by
      exact_mod_cast Nat.pos_of_ne_zero hM
    constructor
    · have : (levMat p1 p2 p1.length p2.length : ℚ) / ((max p1.length p2.length : ℕ) : ℚ) ≤ 1 := by
        rw [div_le_one hMpos]
        exact_mod_cast hle
      linarith
    · have : 0 ≤ (levMat p1 p2 p1.length p2.length : ℚ) / ((max p1.length p2.length : ℕ) : ℚ) :=
        div_nonneg (by positivity) (le_of_lt hMpos)
      linarith

/-- An edit-distance similarity score of 1 forces the normalized strings to
coincide. -/
theorem levenshtein_similarity_eq_one {str1 str2 : String}
    (h : 1 ≤ levenshtein_similarity str1 str2) :
    preprocessChars str1.toList = preprocessChars str2.toList := by
  rw [levenshtein_similarity_eq] at h
  generalize hp1 : preprocessChars str1.toList = p1 at h ⊢
  generalize hp2 : preprocessChars str2.toList = p2 at h ⊢
  by_cases hM : max p1.length p2.length = 0
  · have h1 : p1.length = 0 := by omega
    have h2 : p2.length = 0 := by omega
    rw [List.length_eq_zero.mp h1, List.length_eq_zero.mp h2]
  · have hMpos : (0 : ℚ) < ((max p1.length p2.length : ℕ) : ℚ) := by
      exact_mod_cast Nat.pos_of_ne_zero hM
    have hq : (levMat p1 p2 p1.length p2.length : ℚ) / ((max p1.length p2.length : ℕ) : ℚ) ≤ 0 := by
      linarith
    have hq' : 0 ≤ (levMat p1 p2 p1.length p2.length : ℚ) / ((max p1.length p2.length : ℕ) : ℚ) :=
      div_nonneg (by positivity) (le_of_lt hMpos)
    have hz := le_antisymm hq hq'
    rw [div_eq_zero_iff] at hz
    rcases hz with hz | hz
    · have hz' : levMat p1 p2 p1.length p2.length = 0 := by exact_mod_cast hz
      have := levMat_eq_zero p1 p2 p1.length p2.length le_rfl le_rfl hz'
      simpa [List.take_length] using this
    · exact absurd hz (ne_of_gt hMpos)

/-- Claim C5: for every pair of input values, `levenshtein_similarity`
equals `1 - d / max(len a, len b)` where `d` is the unit-cost DP edit
distance between the normalized strings; both-empty yields 1.0 and
exactly-one-empty yields 0.0. -/
theorem claim_C5_levenshtein_similarity (str1 str2 : String) :
    (levenshtein_similarity str1 str2 =
      1 - (levMat (preprocessChars str1.toList) (preprocessChars str2.toList)
            (preprocessChars str1.toList).length (preprocessChars str2.toList).length : ℚ) /
          ((max (preprocessChars str1.toList).length (preprocessChars str2.toList).length : ℕ) : ℚ)) ∧
    (preprocessChars str1.toList = [] → preprocessChars str2.toList = [] →
      levenshtein_similarity str1 str2 = 1) ∧
    (preprocessChars str1.toList = [] → preprocessChars str2.toList ≠ [] →
      levenshtein_similarity str1 str2 = 0) ∧
    (preprocessChars str1.toList ≠ [] → preprocessChars str2.toList = [] →
      levenshtein_similarity str1 str2 = 0) := by
  refine ⟨levenshtein_similarity_eq str1 str2, ?_, ?_, ?_⟩
  · intro h1 h2
    have h1' : preprocessChars str1.data = [] := h1
    have h2' : preprocessChars str2.data = [] := h2
    simp [levenshtein_similarity, h1', h2']
  · intro h1 h2
    have h1' : preprocessChars str1.data = [] := h1
    have h2' : preprocessChars str2.data ≠ [] := h2
    simp [levenshtein_similarity, h1', h2']
  · intro h1 h2
    have h1' : preprocessChars str1.data ≠ [] := h1
    have h2' : preprocessChars str2.data = [] := h2
    simp [levenshtein_similarity, h1', h2']

theorem claim_C5_levenshtein_similarity_witness :
    levenshtein_similarity "ab" "" = 0 ∧ levenshtein_similarity "" "" = 1 :=
  ⟨(claim_C5_levenshtein_similarity "ab" "").2.2.2 (by decide) (by decide),
   (claim_C5_levenshtein_similarity "" "").2.1 (by decide) (by decide)⟩

/-- Claim C6: for every segmenter and pair of inputs, `word_based_similarity`
equals the Jaccard coefficient |intersection| / |union| of the token sets
produced by the segmenter from the normalized texts; both-empty yields 1.0,
exactly-one-empty yields 0.0, and an empty token-set union yields 0.0. -/
theorem claim_C6_word_based_similarity (seg : String → List String) (str1 str2 : String) :
    (preprocessChars str1.toList true false ≠ [] →
     preprocessChars str2.toList true false ≠ [] →
      word_based_similarity seg str1 str2 =
        (((seg ⟨preprocessChars str1.toList true false⟩).toFinset ∩
          (seg ⟨preprocessChars str2.toList true false⟩).toFinset).card : ℚ) /
        (((seg ⟨preprocessChars str1.toList true false⟩).toFinset ∪
          (seg ⟨preprocessChars str2.toList true false⟩).toFinset).card : ℚ)) ∧
    (preprocessChars str1.toList true false = [] →
     preprocessChars str2.toList true false = [] →
      word_based_similarity seg str1 str2 = 1) ∧
    (preprocessChars str1.toList true false = [] →
     preprocessChars str2.toList true false ≠ [] →
      word_based_similarity seg str1 str2 = 0) ∧
    (preprocessChars str1.toList true false ≠ [] →
     preprocessChars str2.toList true false = [] →
      word_based_similarity seg str1 str2 = 0) ∧
    (((seg ⟨preprocessChars str1.toList true false⟩).toFinset ∪
      (seg ⟨preprocessChars str2.toList true false⟩).toFinset).card = 0 →
      preprocessChars str1.toList true false ≠ [] →
     preprocessChars str2.toList true false ≠ [] →
      word_based_similarity seg str1 str2 = 0) := by
  refine ⟨?_, ?_, ?_, ?_, ?_⟩
  · intro h1 h2
    simp only [word_based_similarity]
    rw [if_neg (by tauto), if_neg (by tauto)]
    by_cases hu : (((seg ⟨preprocessChars str1.toList true false⟩).toFinset ∪
        (seg ⟨preprocessChars str2.toList true false⟩).toFinset).card : ℕ) = 0
    · have hi : (((seg ⟨preprocessChars str1.toList true false⟩).toFinset ∩
          (seg ⟨preprocessChars str2.toList true false⟩).toFinset).card : ℕ) = 0 := by
        have hle := Finset.card_le_card
          (Finset.inter_subset_union (s := (seg ⟨preprocessChars str1.toList true false⟩).toFinset)
            (t := (seg ⟨preprocessChars str2.toList true false⟩).toFinset))
        omega
      rw [if_pos hu, hu, hi]
      norm_num
    · rw [if_neg hu]
  · intro h1 h2
    simp only [word_based_similarity]
    rw [if_pos ⟨h1, h2⟩]
  · intro h1 h2
    simp only [word_based_similarity]
    rw [if_neg (by tauto), if_pos (Or.inl h1)]
  · intro h1 h2
    simp only [word_based_similarity]
    rw [if_neg (by tauto), if_pos (Or.inr h2)]
  · intro hu h1 h2
    simp only [word_based_similarity]
    rw [if_neg (by tauto), if_neg (by tauto), if_pos hu]

theorem claim_C6_word_based_similarity_witness :
    word_based_similarity (fun s => [s]) "ab" "ab" = 1 := by
  have h := (claim_C6_word_based_similarity (fun s => [s]) "ab" "ab").1
    (by decide) (by decide)
  rw [h]
  simp

/-! ### Exact dedup (`deduplicate_dataframe`, pandas `drop_duplicates`) -/

/-- A table row: an association list from column name to cell text. -/
abbrev Row := List (String × String)

/-- Cell access `str(row[col])` (rows are well formed, so a configured
column that is present in the table has an entry; the default is unused). -/
def cellVal (r : Row) (c : String) : String := (r.lookup c).getD ""

/-- Key of a labelled row under a list of key columns: the tuple of its
values in those columns, as `drop_duplicates(subset=key_columns)` uses. -/
def rowKey (keys : List String) (p : Nat × Row) : List String :=
  keys.map (fun k => cellVal p.2 k)

/-- Core of `drop_duplicates(keep='first')`: keep each element whose key has
not been seen earlier. -/
def dropDupFirstAux {α β : Type} [DecidableEq β] (key : α → β) : List β → List α → List α
  | _, [] => []
  | seen, a :: l =>
    if key a ∈ seen then dropDupFirstAux key seen l
    else a :: dropDupFirstAux key (key a :: seen) l

/-- Core of `drop_duplicates(keep='last')`: keep each element whose key does
not occur again later. -/
def dropDupLast {α β : Type} [DecidableEq β] (key : α → β) : List α → List α
  | [] => []
  | a :: l => if key a ∈ l.map key then dropDupLast key l else a :: dropDupLast key l

/-- Core of `drop_duplicates(keep=False)`: keep only elements whose key is
unique in the whole list. -/
def dropDupAll {α β : Type} [DecidableEq β] (key : α → β) (l : List α) : List α :=
  l.filter (fun a => l.countP (fun b => decide (key b = key a)) = 1)

/-- Embedding of `deduplicate_dataframe` from `core/deduplication.py`:
convert the string `'False'` to pandas `keep=False`, then
`df.drop_duplicates(subset=key_columns, keep=keep_option)`.  Rows carry
their original index label.  An invalid keep value makes pandas raise
`ValueError`, modelled as `none`. -/
def deduplicate_dataframe (df : List (Nat × Row)) (key_columns : List String)
    (keep_option : String) : Option (List (Nat × Row)) :=
  if keep_option = "first" then some (dropDupFirstAux (rowKey key_columns) [] df)
  else if keep_option = "last" then some (dropDupLast (rowKey key_columns) df)
  else if keep_option = "False" then some (dropDupAll (rowKey key_columns) df)
  else none

/-! ### The grouping engine (`similarity_based_deduplication`) -/

/-- A dataset: the column list of the frame plus the rows in order.  Row
labels of the frames fed to the engine are the positions `0, 1, …, n-1`
(`df.index[idx] = idx`), so dropping by label is dropping by position. -/
structure DF where
  cols : List String
  rows : List Row

/-- Text of the cell at row position `i`, column `c`
(`str(df.iloc[i][col])`). -/
def cellText (df : DF) (i : Nat) (c : String) : String := cellVal (df.rows.getD i []) c

/-- The per-pair conjunction check of the grouping loop (lines 96–144 of
`core/deduplication.py`): for each configured column in configuration
order, a column absent from `df.columns` is skipped (`continue`), and
otherwise the pair fails as soon as the column's score is strictly below
that column's threshold.  `score method a b` is the similarity the loop
body computes for one comparison; `thresholds` is total, covering both the
scalar threshold (constant function) and the per-column dict of the
source (`thresholds.get(col, threshold)`). -/
def pairSimilar (score : String → String → String → ℚ) (df : DF)
    (columns : List (String × String)) (thresholds : String → ℚ) (i j : Nat) : Bool :=
  columns.all fun cm =>
    !(decide (cm.1 ∈ df.cols)) ||
    !(decide (score cm.2 (cellText df i cm.1) (cellText df j cm.1) < thresholds cm.1))

/-- Mutable state of the grouping loop: the `is_duplicate` markers (as the
list of claimed record indices) and `group_info` (group id = position). -/
structure GroupState where
  claimed : List Nat
  groups : List (List Nat)

/-- The inner `for j in range(i+1, n)` scan: candidates that are not yet
claimed and are similar to the anchor, in ascending order.  (Marking `j`
claimed inside the loop never affects a later `j' > j` of the same scan, so
the scan is a filter.) -/
def candidateScan (sim : Nat → Nat → Bool) (claimed : List Nat) (i n : Nat) : List Nat :=
  (List.range' (i + 1) (n - (i + 1))).filter fun j => !(decide (j ∈ claimed)) && sim i j

/-- One iteration of the outer anchor loop at anchor `i`: skip a claimed
anchor; otherwise scan, and if at least one candidate joined, record the
group and claim its non-anchor members. -/
def groupStep (sim : Nat → Nat → Bool) (n : Nat) (st : GroupState) (i : Nat) : GroupState :=
  if i ∈ st.claimed then st
  else
    let similar := i :: candidateScan sim st.claimed i n
    if 1 < similar.length then
      { claimed := st.claimed ++ similar.tail, groups := st.groups ++ [similar] }
    else st

/-- The outer anchor loop over `i = 0 … n-1`. -/
def runGrouping (sim : Nat → Nat → Bool) (n : Nat) : GroupState :=
  (List.range n).foldl (groupStep sim n) ⟨[], []⟩

/-- Record positions dropped from `result_df` by the keep policy, group by
group (`keep='first'` drops all but the first member, `keep='last'` all but
the last, anything else drops nothing). -/
def removedIndices (keep_option : String) (groups : List (List Nat)) : List Nat :=
  groups.foldl
    (fun acc g =>
      acc ++ (if keep_option = "first" then g.tail
              else if keep_option = "last" then g.dropLast else [])) []

/-- Embedding of `similarity_based_deduplication`, parametrised by the
score `score method a b` that the loop body computes for one column
comparison (the hybrid dispatcher `computeColumnSimilarity` below, or
`calculate_basic_similarity` when `use_model` is off).  Returns the reduced
dataset and the group map (group id = list position). -/
def similarity_based_deduplication (score : String → String → String → ℚ) (df : DF)
    (columns : List (String × String)) (thresholds : String → ℚ) (keep_option : String) :
    DF × List (List Nat) :=
  if df.rows.isEmpty then (df, [])
  else
    let sim := pairSimilar score df columns thresholds
    let st := runGrouping sim df.rows.length
    let removed := removedIndices keep_option st.groups
    ({ cols := df.cols,
       rows := (df.rows.enum.filter fun p => !(decide (p.1 ∈ removed))).map Prod.snd },
     st.groups)

/-! ### The hybrid strategy dispatcher -/

/-- Configuration values read from `QSettings` at the start of
`similarity_based_deduplication`. -/
structure HybridSettings where
  strategy : String
  prefilterThreshold : ℚ
  minTextLength : Nat

/-- Embedding of the per-comparison similarity computation of the grouping
loop body (lines 107–139 of `core/deduplication.py`): choose between the
model-backed provider and `calculate_basic_similarity` according to
`use_model` and the hybrid strategy; a model failure (`none`, the Python
exception) falls back to the basic score for that comparison. -/
def computeColumnSimilarity (seg : String → List String) (settings : HybridSettings)
    (model : String → String → Option ℚ) (use_model : Bool)
    (simMethod text1 text2 : String) : ℚ :=
  if use_model then
    if settings.strategy = "always_model" then
      match model text1 text2 with
      | some v => v
      | none => calculate_basic_similarity seg simMethod text1 text2
    else if settings.strategy = "basic_then_model" then
      let basic := calculate_basic_similarity seg simMethod text1 text2
      if settings.prefilterThreshold ≤ basic then
        match model text1 text2 with
        | some v => v
        | none => calculate_basic_similarity seg simMethod text1 text2
      else basic
    else if settings.strategy = "length_based" then
      if settings.minTextLength < text1.length ∨ settings.minTextLength < text2.length then
        match model text1 text2 with
        | some v => v
        | none => calculate_basic_similarity seg simMethod text1 text2
      else calculate_basic_similarity seg simMethod text1 text2
    else calculate_basic_similarity seg simMethod text1 text2
  else calculate_basic_similarity seg simMethod text1 text2

/-- The grouping engine with the dispatcher plugged in, as run when
`use_model` may be on (`deduplicate_similarity`). -/
def similarity_dedup_with_model (seg : String → List String) (settings : HybridSettings)
    (model : String → String → Option ℚ) (use_model : Bool) (df : DF)
    (columns : List (String × String)) (thresholds : String → ℚ) (keep_option : String) :
    DF × List (List Nat) :=
  similarity_based_deduplication
    (computeColumnSimilarity seg settings model use_model) df columns thresholds keep_option

/-! ### Invariants of the grouping loop -/

theorem candidateScan_mem {sim : Nat → Nat → Bool} {claimed : List Nat} {i n j : Nat} :
    j ∈ candidateScan sim claimed i n ↔
      i + 1 ≤ j ∧ j < n ∧ j ∉ claimed ∧ sim i j = true := by
  unfold candidateScan
  rw [List.mem_filter]
  constructor
  · rintro ⟨hr, hb⟩
    have hr' := List.mem_range'_1.mp hr
    simp only [Bool.and_eq_true, Bool.not_eq_true', decide_eq_false_iff_not] at hb
    exact ⟨hr'.1, by omega, hb.1, hb.2⟩
  · rintro ⟨hj1, hj2, hj3, hj4⟩
    refine ⟨List.mem_range'_1.mpr ⟨hj1, by omega⟩, ?_⟩
    simp [hj3, hj4]

theorem candidateScan_pairwise (sim : Nat → Nat → Bool) (claimed : List Nat) (i n : Nat) :
    (candidateScan sim claimed i n).Pairwise (· < ·) :=
  (List.pairwise_lt_range' _ _).sublist (List.filter_sublist _)

/-- Loop invariant of the outer anchor loop after the anchors `0 … m-1`
have been processed: every recorded group is strictly ascending, has at
least two members all below `n`, is headed by an unclaimed anchor below
`m`; the claimed indices are exactly the non-anchor members; groups are
pairwise disjoint with strictly ascending anchors; and every non-anchor
member was judged similar to its anchor. -/
def GroupInv (sim : Nat → Nat → Bool) (n m : Nat) (st : GroupState) : Prop :=
  (∀ g ∈ st.groups, g.Pairwise (· < ·)) ∧
  (∀ g ∈ st.groups, 1 < g.length) ∧
  (∀ g ∈ st.groups, ∀ x ∈ g, x < n) ∧
  (∀ g ∈ st.groups, g.headD 0 < m ∧ g.headD 0 ∉ st.claimed) ∧
  (∀ x : Nat, x ∈ st.claimed ↔ ∃ g ∈ st.groups, x ∈ g.tail) ∧
  st.groups.Pairwise (fun g h => ∀ x ∈ g, x ∉ h) ∧
  st.groups.Pairwise (fun g h => g.headD 0 < h.headD 0) ∧
  (∀ g ∈ st.groups, ∀ x ∈ g.tail, sim (g.headD 0) x = true)

theorem groupInv_init (sim : Nat → Nat → Bool) (n : Nat) :
    GroupInv sim n 0 ⟨[], []⟩ := by
  refine ⟨?_, ?_, ?_, ?_, ?_, ?_, ?_, ?_⟩ <;> simp

theorem groupStep_inv {sim : Nat → Nat → Bool} {n m : Nat} {st : GroupState}
    (hm : m < n) (h : GroupInv sim n m st) :
    GroupInv sim n (m + 1) (groupStep sim n st m) := by
  obtain ⟨h1, h2, h3, h4, h5, h6, h7, h8⟩ := h
  unfold groupStep
  by_cases hc : m ∈ st.claimed
  · rw [if_pos hc]
    exact ⟨h1, h2, h3, fun g hg => ⟨Nat.lt_succ_of_lt (h4 g hg).1, (h4 g hg).2⟩,
      h5, h6, h7, h8⟩
  · rw [if_neg hc]
    by_cases hl : 1 < (m :: candidateScan sim st.claimed m n).length
    · rw [if_pos hl]
      simp only [List.tail_cons]
      set cs := candidateScan sim st.claimed m n with hcs
      have hcs_mem : ∀ j ∈ cs, m + 1 ≤ j ∧ j < n ∧ j ∉ st.claimed ∧ sim m j = true :=
        fun j hj => candidateScan_mem.mp (hcs ▸ hj)
      have hcs_pw : cs.Pairwise (· < ·) := hcs ▸ candidateScan_pairwise sim st.claimed m n
      have hne : ∀ g ∈ st.groups, g ≠ [] := by
        intro g hg he
        have := h2 g hg
        rw [he] at this
        simp at this
      have hmem_split : ∀ g ∈ st.groups, ∀ x ∈ g, x = g.headD 0 ∨ x ∈ g.tail := by
        intro g hg x hx
        rcases g with _ | ⟨a, t⟩
        · exact absurd rfl (hne _ hg)
        · simpa using hx
      have hnew_not_old : ∀ x ∈ (m :: cs), ∀ g ∈ st.groups, x ∉ g := by
        intro x hx g hg hxg
        rcases hmem_split g hg x hxg with hxa | hxt
        · have hhead := (h4 g hg).1
          rcases List.mem_cons.mp hx with rfl | hxcs
          · omega
          · have := (hcs_mem x hxcs).1
            omega
        · have hxc : x ∈ st.claimed := (h5 x).mpr ⟨g, hg, hxt⟩
          rcases List.mem_cons.mp hx with rfl | hxcs
          · exact hc hxc
          · exact (hcs_mem x hxcs).2.2.1 hxc
      refine ⟨?_, ?_, ?_, ?_, ?_, ?_, ?_, ?_⟩
      · intro g hg
        rcases List.mem_append.mp hg with hg | hg
        · exact h1 g hg
        · have hg' : g = m :: cs := by simpa using hg
          subst hg'
          exact List.pairwise_cons.mpr ⟨fun j hj => by have := (hcs_mem j hj).1; omega, hcs_pw⟩
      · intro g hg
        rcases List.mem_append.mp hg with hg | hg
        · exact h2 g hg
        · have hg' : g = m :: cs := by simpa using hg
          subst hg'
          exact hl
      · intro g hg x hx
        rcases List.mem_append.mp hg with hg | hg
        · exact h3 g hg x hx
        · have hg' : g = m :: cs := by simpa using hg
          subst hg'
          rcases List.mem_cons.mp hx with rfl | hxcs
          · exact hm
          · exact (hcs_mem x hxcs).2.1
      · intro g hg
        rcases List.mem_append.mp hg with hg | hg
        · refine ⟨Nat.lt_succ_of_lt (h4 g hg).1, ?_⟩
          intro hmem
          rcases List.mem_append.mp hmem with hmem | hmem
          · exact (h4 g hg).2 hmem
          · have := (hcs_mem _ hmem).1
            have := (h4 g hg).1
            omega
        · have hg' : g = m :: cs := by simpa using hg
          subst hg'
          simp only [List.headD_cons]
          refine ⟨Nat.lt_succ_self m, ?_⟩
          intro hmem
          rcases List.mem_append.mp hmem with hmem | hmem
          · exact hc hmem
          · have := (hcs_mem _ hmem).1
            omega
      · intro x
        constructor
        · intro hx
          rcases List.mem_append.mp hx with hx | hx
          · obtain ⟨g, hg, ht⟩ := (h5 x).mp hx
            exact ⟨g, List.mem_append_left _ hg, ht⟩
          · exact ⟨m :: cs, List.mem_append_right _ (by simp), by simpa using hx⟩
        · rintro ⟨g, hg, ht⟩
          rcases List.mem_append.mp hg with hg | hg
          · exact List.mem_append_left _ ((h5 x).mpr ⟨g, hg, ht⟩)
          · have hg' : g = m :: cs := by simpa using hg
            subst hg'
            exact List.mem_append_right _ (by simpa using ht)
      · rw [List.pairwise_append]
        refine ⟨h6, by simp, ?_⟩
        intro g hg b hb x hxg hxb
        have hb' : b = m :: cs := by simpa using hb
        subst hb'
        exact hnew_not_old x hxb g hg hxg
      · rw [List.pairwise_append]
        refine ⟨h7, by simp, ?_⟩
        intro g hg b hb
        have hb' : b = m :: cs := by simpa using hb
        subst hb'
        simpa using (h4 g hg).1
      · intro g hg x hx
        rcases List.mem_append.mp hg with hg | hg
        · exact h8 g hg x hx
        · have hg' : g = m :: cs := by simpa using hg
          subst hg'
          simp only [List.headD_cons]
          exact (hcs_mem x (by simpa using hx)).2.2.2
    · rw [if_neg hl]
      exact ⟨h1, h2, h3, fun g hg => ⟨Nat.lt_succ_of_lt (h4 g hg).1, (h4 g hg).2⟩,
        h5, h6, h7, h8⟩

theorem runGrouping_inv (sim : Nat → Nat → Bool) (n : Nat) :
    GroupInv sim n n (runGrouping sim n) := by
  suffices h : ∀ k, k ≤ n → GroupInv sim n k ((List.range k).foldl (groupStep sim n) ⟨[], []⟩) by
    exact h n le_rfl
  intro k
  induction k with
  | zero => intro _; exact groupInv_init sim n
  | succ k ih =>
    intro hk
    rw [List.range_succ, List.foldl_append]
    simp only [List.foldl_cons, List.foldl_nil]
    exact groupStep_inv (by omega) (ih (by omega))

theorem pairSimilar_eq_true_iff (score : String → String → String → ℚ) (df : DF)
    (columns : List (String × String)) (thresholds : String → ℚ) (i j : Nat) :
    pairSimilar score df columns thresholds i j = true ↔
      ∀ cm ∈ columns, cm.1 ∈ df.cols →
        thresholds cm.1 ≤ score cm.2 (cellText df i cm.1) (cellText df j cm.1) := by
  unfold pairSimilar
  rw [List.all_eq_true]
  constructor
  · intro h cm hcm hcol
    have hx := h cm hcm
    simp only [Bool.or_eq_true, Bool.not_eq_true', decide_eq_false_iff_not] at hx
    rcases hx with hx | hx
    · exact absurd hcol hx
    · exact not_lt.mp hx
  · intro h cm hcm
    simp only [Bool.or_eq_true, Bool.not_eq_true', decide_eq_false_iff_not]
    by_cases hcol : cm.1 ∈ df.cols
    · exact Or.inr (not_lt.mpr (h cm hcm hcol))
    · exact Or.inl hcol

/-- Claim C1: a pair (anchor `i`, candidate `j`) is judged similar exactly
when every configured column whose name occurs in the dataset has a score
meeting or exceeding that column's own threshold.  The conjunction is a
`List.all` over the configured columns in configuration order, which
short-circuits on the first failing column exactly as the `break` in the
source; a configured column missing from `df.columns` is skipped
(`continue`), i.e. it never disqualifies the pair. -/
theorem claim_C1_pair_similarity (score : String → String → String → ℚ) (df : DF)
    (columns : List (String × String)) (thresholds : String → ℚ) (i j : Nat) :
    pairSimilar score df columns thresholds i j = true ↔
      ∀ cm ∈ columns, cm.1 ∈ df.cols →
        thresholds cm.1 ≤ score cm.2 (cellText df i cm.1) (cellText df j cm.1) :=
  pairSimilar_eq_true_iff score df columns thresholds i j

theorem claim_C1_pair_similarity_witness :
    pairSimilar (fun _ _ _ => (1 : ℚ))
      ⟨["name"], [[("name", "a")], [("name", "b")]]⟩
      [("name", "levenshtein")] (fun _ => (1 : ℚ) / 2) 0 1 = true :=
  (claim_C1_pair_similarity _ _ _ _ 0 1).mpr
    (fun cm _ _ => by norm_num)

/-- The group map returned by the engine. -/
theorem similarity_based_deduplication_snd (score : String → String → String → ℚ) (df : DF)
    (columns : List (String × String)) (thresholds : String → ℚ) (keep_option : String) :
    (similarity_based_deduplication score df columns thresholds keep_option).2 =
      if df.rows.isEmpty then []
      else (runGrouping (pairSimilar score df columns thresholds) df.rows.length).groups := by
  unfold similarity_based_deduplication
  by_cases h : df.rows.isEmpty <;> simp [h]

/-- The reduced dataset returned by the engine. -/
theorem similarity_based_deduplication_fst (score : String → String → String → ℚ) (df : DF)
    (columns : List (String × String)) (thresholds : String → ℚ) (keep_option : String) :
    (similarity_based_deduplication score df columns thresholds keep_option).1.rows =
      if df.rows.isEmpty then df.rows
      else
        (df.rows.enum.filter fun p =>
          !(decide (p.1 ∈ removedIndices keep_option
            (runGrouping (pairSimilar score df columns thresholds) df.rows.length).groups))).map
          Prod.snd := by
  unfold similarity_based_deduplication
  by_cases h : df.rows.isEmpty <;> simp [h]

theorem headD_le_of_pairwise_lt {g : List ℕ} (hp : g.Pairwise (· < ·)) :
    ∀ x ∈ g, g.headD 0 ≤ x := by
  cases g with
  | nil => intro x hx; simp at hx
  | cons a t =>
    intro x hx
    rcases List.mem_cons.mp hx with rfl | hxt
    · simp
    · simpa using Nat.le_of_lt ((List.pairwise_cons.mp hp).1 x hxt)

/-- Consequences of the loop invariant for the returned group map. -/
theorem grouping_output_inv (score : String → String → String → ℚ) (df : DF)
    (columns : List (String × String)) (thresholds : String → ℚ) (keep_option : String) :
    (∀ g ∈ (similarity_based_deduplication score df columns thresholds keep_option).2,
      1 < g.length) ∧
    (∀ g ∈ (similarity_based_deduplication score df columns thresholds keep_option).2,
      g.Pairwise (· < ·)) ∧
    (∀ g ∈ (similarity_based_deduplication score df columns thresholds keep_option).2,
      ∀ x ∈ g, g.headD 0 ≤ x ∧ x < df.rows.length) ∧
    (similarity_based_deduplication score df columns thresholds keep_option).2.Pairwise
      (fun g h => ∀ x ∈ g, x ∉ h) ∧
    (similarity_based_deduplication score df columns thresholds keep_option).2.Pairwise
      (fun g h => g.headD 0 < h.headD 0) ∧
    (∀ g ∈ (similarity_based_deduplication score df columns thresholds keep_option).2,
      ∀ x ∈ g.tail, pairSimilar score df columns thresholds (g.headD 0) x = true) := by
  rw [similarity_based_deduplication_snd]
  by_cases h : df.rows.isEmpty
  · rw [if_pos h]
    refine ⟨?_, ?_, ?_, ?_, ?_, ?_⟩ <;> simp
  · rw [if_neg h]
    obtain ⟨h1, h2, h3, _, _, h6, h7, h8⟩ :=
      runGrouping_inv (pairSimilar score df columns thresholds) df.rows.length
    exact ⟨h2, h1, fun g hg x hx => ⟨headD_le_of_pairwise_lt (h1 g hg) x hx, h3 g hg x hx⟩,
      h6, h7, h8⟩

/-- Claim C2: on every run of the grouping engine, recorded groups have
more than one member; each group's member list is strictly ascending with
the anchor as its least member and all members valid record indices;
distinct recorded groups are disjoint, so a record belongs to at most one
group and a record claimed by one group is never the anchor of, nor a
member of, another; and groups are recorded in strictly ascending anchor
order (group ids, being list positions `0, 1, 2, …`, are assigned
sequentially in order of discovery, and only groups of more than one
member are recorded). -/
theorem claim_C2_grouping_invariants (score : String → String → String → ℚ) (df : DF)
    (columns : List (String × String)) (thresholds : String → ℚ) (keep_option : String) :
    (∀ g ∈ (similarity_based_deduplication score df columns thresholds keep_option).2,
      1 < g.length) ∧
    (∀ g ∈ (similarity_based_deduplication score df columns thresholds keep_option).2,
      g.Pairwise (· < ·)) ∧
    (∀ g ∈ (similarity_based_deduplication score df columns thresholds keep_option).2,
      ∀ x ∈ g, g.headD 0 ≤ x ∧ x < df.rows.length) ∧
    (∀ g1 ∈ (similarity_based_deduplication score df columns thresholds keep_option).2,
      ∀ g2 ∈ (similarity_based_deduplication score df columns thresholds keep_option).2,
        g1 ≠ g2 → ∀ x ∈ g1, x ∉ g2) ∧
    (similarity_based_deduplication score df columns thresholds keep_option).2.Pairwise
      (fun g h => g.headD 0 < h.headD 0) := by
  obtain ⟨h1, h2, h3, h4, h5, _⟩ :=
    grouping_output_inv score df columns thresholds keep_option
  refine ⟨h1, h2, h3, ?_, h5⟩
  intro g1 hg1 g2 hg2 hne
  have hsym : Symmetric (fun g h : List ℕ => ∀ x ∈ g, x ∉ h) := by
    intro a b hab x hxb hxa
    exact hab x hxa hxb
  exact h4.forall hsym hg1 hg2 hne

theorem claim_C2_grouping_invariants_witness :
    1 < ([0, 1] : List ℕ).length :=
  (claim_C2_grouping_invariants (fun _ _ _ => (1 : ℚ))
      ⟨["name"], [[("name", "a")], [("name", "b")]]⟩
      [("name", "levenshtein")] (fun _ => 0) "none").1
    [0, 1] (by decide)

/-! ### Keep-policy helpers -/

theorem getLastD_mem : ∀ {g : List ℕ}, g ≠ [] → g.getLastD 0 ∈ g := by
  intro g
  induction g with
  | nil => intro h; exact absurd rfl h
  | cons a t ih =>
    intro _
    rw [List.getLastD_cons]
    cases t with
    | nil => simp
    | cons b t' => exact List.mem_cons_of_mem a (by simpa [List.getLastD_cons] using ih (by simp))

theorem le_getLastD_of_pairwise_lt : ∀ {g : List ℕ}, g.Pairwise (· < ·) →
    ∀ x ∈ g, x ≤ g.getLastD 0 := by
  intro g
  induction g with
  | nil => simp
  | cons a t ih =>
    intro hp x hx
    rw [List.getLastD_cons]
    obtain ⟨hat, hpt⟩ := List.pairwise_cons.mp hp
    rcases List.mem_cons.mp hx with rfl | hxt
    · cases t with
      | nil => simp
      | cons b t' =>
        have hb := hat b (by simp)
        have hble := ih hpt b (by simp)
        rw [List.getLastD_cons] at hble ⊢
        omega
    · cases t with
      | nil => simp at hxt
      | cons b t' =>
        have := ih hpt x hxt
        rw [List.getLastD_cons] at this ⊢
        exact this

theorem lt_getLastD_of_mem_dropLast : ∀ {g : List ℕ}, g.Pairwise (· < ·) →
    ∀ x ∈ g.dropLast, x < g.getLastD 0 := by
  intro g
  induction g with
  | nil => simp
  | cons a t ih =>
    intro hp x hx
    obtain ⟨hat, hpt⟩ := List.pairwise_cons.mp hp
    cases t with
    | nil => simp at hx
    | cons b t' =>
      rw [List.getLastD_cons, List.getLastD_cons]
      rcases List.mem_cons.mp (by simpa using hx) with rfl | hx'
      · have hb := hat b (by simp)
        have hble := le_getLastD_of_pairwise_lt hpt b (by simp)
        rw [List.getLastD_cons] at hble
        omega
      · have := ih hpt x (by simpa using hx')
        rw [List.getLastD_cons] at this
        exact this

theorem mem_dropLast_or_eq_getLastD : ∀ {g : List ℕ}, g ≠ [] →
    ∀ x ∈ g, x ∈ g.dropLast ∨ x = g.getLastD 0 := by
  intro g
  induction g with
  | nil => intro h; exact absurd rfl h
  | cons a t ih =>
    intro _ x hx
    cases t with
    | nil =>
      have : x = a := by simpa using hx
      simp [this]
    | cons b t' =>
      rw [List.getLastD_cons]
      rcases List.mem_cons.mp hx with rfl | hxt
      · left; simp
      · rcases ih (by simp) x hxt with h | h
        · left; simpa using Or.inr h
        · right; rwa [List.getLastD_cons] at h ⊢

theorem foldl_append_mem {α β : Type} (f : β → List α) :
    ∀ (l : List β) (acc : List α) (x : α),
      (x ∈ l.foldl (fun a g => a ++ f g) acc ↔ x ∈ acc ∨ ∃ g ∈ l, x ∈ f g) := by
  intro l
  induction l with
  | nil => simp
  | cons b t ih =>
    intro acc x
    rw [List.foldl_cons, ih]
    simp only [List.mem_append, List.mem_cons]
    constructor
    · rintro (⟨hx | hx⟩ | ⟨g, hg, hxg⟩)
      · exact Or.inl hx
      · exact Or.inr ⟨b, Or.inl rfl, hx⟩
      · exact Or.inr ⟨g, Or.inr hg, hxg⟩
    · rintro (hx | ⟨g, (rfl | hg), hxg⟩)
      · exact Or.inl (Or.inl hx)
      · exact Or.inl (Or.inr hxg)
      · exact Or.inr ⟨g, hg, hxg⟩

theorem removedIndices_mem (keep_option : String) (groups : List (List ℕ)) (x : ℕ) :
    x ∈ removedIndices keep_option groups ↔
      ∃ g ∈ groups, x ∈ (if keep_option = "first" then g.tail
                         else if keep_option = "last" then g.dropLast else ([] : List ℕ)) := by
  unfold removedIndices
  have h := foldl_append_mem (fun g => if keep_option = "first" then g.tail
      else if keep_option = "last" then g.dropLast else ([] : List ℕ)) groups [] x
  simpa using h

theorem removedIndices_eq_nil {keep_option : String} (groups : List (List ℕ))
    (h1 : keep_option ≠ "first") (h2 : keep_option ≠ "last") :
    removedIndices keep_option groups = [] := by
  rw [List.eq_nil_iff_forall_not_mem]
  intro x hx
  rw [removedIndices_mem] at hx
  obtain ⟨g, _, hxg⟩ := hx
  rw [if_neg h1, if_neg h2] at hxg
  simp at hxg

theorem sbd_rows_sublist (score : String → String → String → ℚ) (df : DF)
    (columns : List (String × String)) (thresholds : String → ℚ) (keep_option : String) :
    List.Sublist
      (similarity_based_deduplication score df columns thresholds keep_option).1.rows
      df.rows := by
  rw [similarity_based_deduplication_fst]
  by_cases h : df.rows.isEmpty
  · rw [if_pos h]
  · rw [if_neg h]
    have h2 := (List.filter_sublist (l := df.rows.enum)
      (p := fun p => !(decide (p.1 ∈ removedIndices keep_option
        (runGrouping (pairSimilar score df columns thresholds) df.rows.length).groups)))).map
      Prod.snd
    rwa [List.enum_map_snd] at h2

theorem groups_disjoint_symm {gs : List (List ℕ)}
    (h : gs.Pairwise (fun g h => ∀ x ∈ g, x ∉ h)) :
    ∀ g1 ∈ gs, ∀ g2 ∈ gs, g1 ≠ g2 → ∀ x ∈ g1, x ∉ g2 := by
  intro g1 hg1 g2 hg2 hne
  have hsym : Symmetric (fun g h : List ℕ => ∀ x ∈ g, x ∉ h) :=
    fun a b hab x hxb hxa => hab x hxa hxb
  exact h.forall hsym hg1 hg2 hne

/-- With `keep='first'`, each recorded group's anchor (its least member)
survives and every other member is dropped. -/
theorem sbd_first_survivors (score : String → String → String → ℚ) (df : DF)
    (columns : List (String × String)) (thresholds : String → ℚ) :
    ∀ g ∈ (similarity_based_deduplication score df columns thresholds "first").2,
      g.headD 0 ∉ removedIndices "first"
        (similarity_based_deduplication score df columns thresholds "first").2 ∧
      (∀ x ∈ g, x ≠ g.headD 0 → x ∈ removedIndices "first"
        (similarity_based_deduplication score df columns thresholds "first").2) := by
  obtain ⟨h1, h2, _, h4, _, _⟩ := grouping_output_inv score df columns thresholds "first"
  intro g hg
  constructor
  · intro hmem
    rw [removedIndices_mem] at hmem
    obtain ⟨g', hg', hx⟩ := hmem
    rw [if_pos rfl] at hx
    by_cases hgg : g = g'
    · subst hgg
      have hpw := h2 g hg
      rcases g with _ | ⟨a, t⟩
      · simp at hx
      · simp only [List.headD_cons, List.tail_cons] at hx
        have := (List.pairwise_cons.mp hpw).1 _ hx
        omega
    · have hhg : g.headD 0 ∈ g := by
        rcases g with _ | ⟨a, t⟩
        · have := h1 _ hg
          simp at this
        · simp
      exact groups_disjoint_symm h4 g hg g' hg' hgg _ hhg (List.mem_of_mem_tail hx)
  · intro x hx hne
    rw [removedIndices_mem]
    refine ⟨g, hg, ?_⟩
    rw [if_pos rfl]
    rcases g with _ | ⟨a, t⟩
    · simp at hx
    · simp only [List.headD_cons] at hne
      simpa using (List.mem_cons.mp hx).resolve_left hne

/-- With `keep='last'`, each recorded group's greatest member survives and
every other member is dropped. -/
theorem sbd_last_survivors (score : String → String → String → ℚ) (df : DF)
    (columns : List (String × String)) (thresholds : String → ℚ) :
    ∀ g ∈ (similarity_based_deduplication score df columns thresholds "last").2,
      g.getLastD 0 ∉ removedIndices "last"
        (similarity_based_deduplication score df columns thresholds "last").2 ∧
      (∀ x ∈ g, x ≠ g.getLastD 0 → x ∈ removedIndices "last"
        (similarity_based_deduplication score df columns thresholds "last").2) := by
  obtain ⟨h1, h2, _, h4, _, _⟩ := grouping_output_inv score df columns thresholds "last"
  intro g hg
  have hne : g ≠ [] := by
    intro he
    have := h1 _ hg
    rw [he] at this
    simp at this
  constructor
  · intro hmem
    rw [removedIndices_mem] at hmem
    obtain ⟨g', hg', hx⟩ := hmem
    rw [if_neg (by decide), if_pos rfl] at hx
    by_cases hgg : g = g'
    · subst hgg
      have := lt_getLastD_of_mem_dropLast (h2 g hg) _ hx
      omega
    · exact groups_disjoint_symm h4 g hg g' hg' hgg _ (getLastD_mem hne)
        (List.dropLast_subset g' hx)
  · intro x hx hxe
    rw [removedIndices_mem]
    refine ⟨g, hg, ?_⟩
    rw [if_neg (by decide), if_pos rfl]
    exact (mem_dropLast_or_eq_getLastD hne x hx).resolve_right hxe

/-- With any keep value other than `'first'` and `'last'`, no row is
removed. -/
theorem sbd_other_keep (score : String → String → String → ℚ) (df : DF)
    (columns : List (String × String)) (thresholds : String → ℚ) {keep_option : String}
    (hk1 : keep_option ≠ "first") (hk2 : keep_option ≠ "last") :
    (similarity_based_deduplication score df columns thresholds keep_option).1.rows =
      df.rows := by
  rw [similarity_based_deduplication_fst]
  by_cases h : df.rows.isEmpty
  · rw [if_pos h]
  · rw [if_neg h, removedIndices_eq_nil _ hk1 hk2]
    have : (df.rows.enum.filter fun p => !(decide (p.1 ∈ ([] : List ℕ)))) = df.rows.enum :=
      List.filter_eq_self.mpr (fun p _ => by simp)
    rw [this, List.enum_map_snd]

/-! ### Characterization of `drop_duplicates` -/

theorem dropDupFirstAux_sublist {α β : Type} [DecidableEq β] (key : α → β) :
    ∀ (l : List α) (seen : List β), List.Sublist (dropDupFirstAux key seen l) l := by
  intro l
  induction l with
  | nil => intro seen; simp [dropDupFirstAux]
  | cons a t ih =>
    intro seen
    rw [dropDupFirstAux]
    by_cases h : key a ∈ seen
    · rw [if_pos h]
      exact (ih seen).cons a
    · rw [if_neg h]
      exact (ih _).cons₂ a

theorem dropDupFirstAux_filter_mem {α β : Type} [DecidableEq β] (key : α → β) (k : β) :
    ∀ (l : List α) (seen : List β), k ∈ seen →
      (dropDupFirstAux key seen l).filter (fun a => decide (key a = k)) = [] := by
  intro l
  induction l with
  | nil => intro seen _; simp [dropDupFirstAux]
  | cons a t ih =>
    intro seen hk
    rw [dropDupFirstAux]
    by_cases h : key a ∈ seen
    · rw [if_pos h]
      exact ih seen hk
    · rw [if_neg h]
      have hne : ¬(key a = k) := fun he => h (he ▸ hk)
      rw [List.filter_cons_of_neg (by simp [hne])]
      exact ih (key a :: seen) (List.mem_cons_of_mem _ hk)

theorem dropDupFirstAux_filter_not_mem {α β : Type} [DecidableEq β] (key : α → β) (k : β) :
    ∀ (l : List α) (seen : List β), k ∉ seen →
      (dropDupFirstAux key seen l).filter (fun a => decide (key a = k)) =
        (l.filter (fun a => decide (key a = k))).take 1 := by
  intro l
  induction l with
  | nil => intro seen _; simp [dropDupFirstAux]
  | cons a t ih =>
    intro seen hk
    rw [dropDupFirstAux]
    by_cases h : key a ∈ seen
    · rw [if_pos h]
      have hne : ¬(key a = k) := fun he => hk (he ▸ h)
      rw [ih seen hk, List.filter_cons_of_neg (by simp [hne])]
    · rw [if_neg h]
      by_cases hak : key a = k
      · rw [List.filter_cons_of_pos (by simp [hak]), List.filter_cons_of_pos (by simp [hak])]
        rw [dropDupFirstAux_filter_mem key k t (key a :: seen) (by simp [hak])]
        simp
      · rw [List.filter_cons_of_neg (by simp [hak]), List.filter_cons_of_neg (by simp [hak])]
        refine ih (key a :: seen) ?_
        intro hmem
        rcases List.mem_cons.mp hmem with he | he
        · exact hak he.symm
        · exact hk he

theorem dropDupLast_sublist {α β : Type} [DecidableEq β] (key : α → β) :
    ∀ l : List α, List.Sublist (dropDupLast key l) l := by
  intro l
  induction l with
  | nil => simp [dropDupLast]
  | cons a t ih =>
    rw [dropDupLast]
    by_cases h : key a ∈ t.map key
    · rw [if_pos h]
      exact ih.cons a
    · rw [if_neg h]
      exact ih.cons₂ a

theorem getLast?_cons_cons {α : Type} (a b : α) (t : List α) :
    (a :: b :: t).getLast? = (b :: t).getLast? := by
  simp [List.getLast?_cons]

theorem getLast?_cons_of_ne_nil {α : Type} (a : α) {l : List α} (h : l ≠ []) :
    (a :: l).getLast? = l.getLast? := by
  cases l with
  | nil => exact absurd rfl h
  | cons b t => exact getLast?_cons_cons a b t

theorem dropDupLast_filter {α β : Type} [DecidableEq β] (key : α → β) (k : β) :
    ∀ l : List α,
      (dropDupLast key l).filter (fun a => decide (key a = k)) =
        ((l.filter (fun a => decide (key a = k))).getLast?).toList := by
  intro l
  induction l with
  | nil => simp [dropDupLast]
  | cons a t ih =>
    rw [dropDupLast]
    by_cases h : key a ∈ t.map key
    · rw [if_pos h]
      by_cases hak : key a = k
      · obtain ⟨b, hb, hkb⟩ := List.mem_map.mp h
        have htf : t.filter (fun x => decide (key x = k)) ≠ [] := by
          intro he
          have hbmem : b ∈ t.filter (fun x => decide (key x = k)) :=
            List.mem_filter.mpr ⟨hb, by simp [hkb, hak]⟩
          rw [he] at hbmem
          simp at hbmem
        rw [List.filter_cons_of_pos (by simp [hak]), ih,
          getLast?_cons_of_ne_nil a htf]
      · rw [List.filter_cons_of_neg (by simp [hak])]
        exact ih
    · rw [if_neg h]
      by_cases hak : key a = k
      · have htf : t.filter (fun x => decide (key x = k)) = [] := by
          rw [List.filter_eq_nil_iff]
          intro b hb
          simp only [decide_eq_true_eq]
          intro hkb
          exact h (List.mem_map.mpr ⟨b, hb, by rw [hkb, hak]⟩)
        have hdf : (dropDupLast key t).filter (fun x => decide (key x = k)) = [] := by
          have hsub := (dropDupLast_sublist key t).filter (fun x => decide (key x = k))
          rw [htf] at hsub
          exact List.sublist_nil.mp hsub
        rw [List.filter_cons_of_pos (by simp [hak]), List.filter_cons_of_pos (by simp [hak]),
          hdf, htf]
        simp
      · rw [List.filter_cons_of_neg (by simp [hak]), List.filter_cons_of_neg (by simp [hak])]
        exact ih

theorem mem_of_getLast?_eq_some {α : Type} : ∀ {l : List α} {y : α},
    l.getLast? = some y → y ∈ l := by
  intro l
  induction l with
  | nil => intro y h; simp at h
  | cons a t ih =>
    intro y h
    cases t with
    | nil =>
      simp at h
      simp [h]
    | cons b t' =>
      rw [getLast?_cons_cons] at h
      exact List.mem_cons_of_mem a (ih h)

theorem le_of_getLast?_pairwise {α : Type} (f : α → ℕ) :
    ∀ {l : List α}, l.Pairwise (fun a b => f a < f b) → ∀ {y : α}, l.getLast? = some y →
      ∀ x ∈ l, f x ≤ f y := by
  intro l
  induction l with
  | nil => intro _ y h; simp at h
  | cons a t ih =>
    intro hp y hy x hx
    cases t with
    | nil =>
      simp at hy
      have hxa : x = a := by simpa using hx
      simp [hxa, ← hy]
    | cons b t' =>
      rw [getLast?_cons_cons] at hy
      obtain ⟨hab, hpt⟩ := List.pairwise_cons.mp hp
      rcases List.mem_cons.mp hx with rfl | hx'
      · have h1 := hab b (by simp)
        have h2 := ih hpt hy b (by simp)
        omega
      · exact ih hpt hy x hx'

/-- With `keep='first'`, an element survives exact dedup exactly when it
carries the least label among the elements of its key class. -/
theorem mem_dropDupFirstAux_iff {α β : Type} [DecidableEq β] (key : α → β) (f : α → ℕ)
    {l : List α} (hpw : l.Pairwise (fun a b => f a < f b)) (p : α) :
    p ∈ dropDupFirstAux key [] l ↔
      p ∈ l ∧ ∀ q ∈ l, key q = key p → f p ≤ f q := by
  constructor
  · intro hp
    have hpl : p ∈ l := (dropDupFirstAux_sublist key l []).mem hp
    refine ⟨hpl, ?_⟩
    intro q hq hkq
    have hchar := dropDupFirstAux_filter_not_mem key (key p) l [] (by simp)
    have hpf : p ∈ (dropDupFirstAux key [] l).filter (fun a => decide (key a = key p)) :=
      List.mem_filter.mpr ⟨hp, by simp⟩
    rw [hchar] at hpf
    cases hf : l.filter (fun a => decide (key a = key p)) with
    | nil =>
      rw [hf] at hpf
      simp at hpf
    | cons b ts =>
      rw [hf] at hpf
      have hpb : p = b := by simpa using hpf
      subst hpb
      have hqf : q ∈ l.filter (fun a => decide (key a = key p)) :=
        List.mem_filter.mpr ⟨hq, by simp [hkq]⟩
      rw [hf] at hqf
      have hpwf : (p :: ts).Pairwise (fun a b => f a < f b) :=
        hf ▸ hpw.sublist (List.filter_sublist l)
      rcases List.mem_cons.mp hqf with rfl | hq'
      · exact le_refl _
      · exact Nat.le_of_lt ((List.pairwise_cons.mp hpwf).1 q hq')
  · rintro ⟨hpl, hmin⟩
    have hchar := dropDupFirstAux_filter_not_mem key (key p) l [] (by simp)
    have hpf : p ∈ l.filter (fun a => decide (key a = key p)) :=
      List.mem_filter.mpr ⟨hpl, by simp⟩
    cases hf : l.filter (fun a => decide (key a = key p)) with
    | nil =>
      rw [hf] at hpf
      simp at hpf
    | cons b ts =>
      have hbf : b ∈ l.filter (fun a => decide (key a = key p)) := by
        rw [hf]
        exact List.mem_cons_self b ts
      have hb : b = p := by
        by_contra hne
        have hbl : b ∈ l := List.mem_of_mem_filter hbf
        have hbk : key b = key p := by simpa using List.of_mem_filter hbf
        have hple : f p ≤ f b := hmin b hbl hbk
        rw [hf] at hpf
        rcases List.mem_cons.mp hpf with he | hpts
        · exact hne he.symm
        · have hpwf : (b :: ts).Pairwise (fun a b => f a < f b) :=
            hf ▸ hpw.sublist (List.filter_sublist l)
          have := (List.pairwise_cons.mp hpwf).1 p hpts
          omega
      have hout : p ∈ (dropDupFirstAux key [] l).filter (fun a => decide (key a = key p)) := by
        rw [hchar, hf, hb]
        simp
      exact List.mem_of_mem_filter hout

/-- With `keep='last'`, an element survives exact dedup exactly when it
carries the greatest label among the elements of its key class. -/
theorem mem_dropDupLast_iff {α β : Type} [DecidableEq β] (key : α → β) (f : α → ℕ)
    {l : List α} (hpw : l.Pairwise (fun a b => f a < f b)) (p : α) :
    p ∈ dropDupLast key l ↔
      p ∈ l ∧ ∀ q ∈ l, key q = key p → f q ≤ f p := by
  constructor
  · intro hp
    have hpl : p ∈ l := (dropDupLast_sublist key l).mem hp
    refine ⟨hpl, ?_⟩
    intro q hq hkq
    have hchar := dropDupLast_filter key (key p) l
    have hpf : p ∈ (dropDupLast key l).filter (fun a => decide (key a = key p)) :=
      List.mem_filter.mpr ⟨hp, by simp⟩
    rw [hchar] at hpf
    have hlast : (l.filter (fun a => decide (key a = key p))).getLast? = some p := by
      cases ho : (l.filter (fun a => decide (key a = key p))).getLast? with
      | none =>
        rw [ho] at hpf
        simp at hpf
      | some y =>
        rw [ho] at hpf
        have : p = y := by simpa using hpf
        rw [this]
    have hqf : q ∈ l.filter (fun a => decide (key a = key p)) :=
      List.mem_filter.mpr ⟨hq, by simp [hkq]⟩
    exact le_of_getLast?_pairwise f (hpw.sublist (List.filter_sublist l)) hlast q hqf
  · rintro ⟨hpl, hmax⟩
    have hpf : p ∈ l.filter (fun a => decide (key a = key p)) :=
      List.mem_filter.mpr ⟨hpl, by simp⟩
    cases ho : (l.filter (fun a => decide (key a = key p))).getLast? with
    | none =>
      exfalso
      cases hf : l.filter (fun a => decide (key a = key p)) with
      | nil =>
        rw [hf] at hpf
        simp at hpf
      | cons b ts =>
        rw [hf, List.getLast?_cons] at ho
        simp at ho
    | some y =>
      have hy_mem : y ∈ l.filter (fun a => decide (key a = key p)) :=
        mem_of_getLast?_eq_some ho
      have hyl : y ∈ l := List.mem_of_mem_filter hy_mem
      have hky : key y = key p := by simpa using List.of_mem_filter hy_mem
      have h1 : f y ≤ f p := hmax y hyl hky
      have hpwf := hpw.sublist (List.filter_sublist (p := fun a => decide (key a = key p)) l)
      have h2 : f p ≤ f y := le_of_getLast?_pairwise f hpwf ho p hpf
      have hyp : y = p := by
        by_contra hne
        have hfne : f y ≠ f p := by
          have hsym : Symmetric (fun a b : α => f a ≠ f b) := fun a b hab he => hab he.symm
          exact (hpwf.imp (fun hlt => Nat.ne_of_lt hlt)).forall hsym hy_mem hpf hne
        omega
      have hout : p ∈ (dropDupLast key l).filter (fun a => decide (key a = key p)) := by
        rw [dropDupLast_filter key (key p) l, ho, hyp]
        simp
      exact List.mem_of_mem_filter hout

/-- Claim C3: keep-policy correctness.  For the grouping engine: with
`keep='first'` exactly the lowest-index member of each recorded group
escapes removal and every other member is removed; with `keep='last'`
exactly the highest-index member escapes; with any other keep value
nothing is removed and the dataset is returned unchanged; survivors always
appear in the original relative order (the output rows are a sublist of
the input rows).  For exact dedup (`deduplicate_dataframe`) on a frame
with ascending labels: `'first'` keeps exactly the elements of least label
in their key class, `'last'` exactly those of greatest label. -/
theorem claim_C3_keep_policy :
    (∀ (score : String → String → String → ℚ) (df : DF) (columns : List (String × String))
      (thresholds : String → ℚ) (keep_option : String),
        List.Sublist
          (similarity_based_deduplication score df columns thresholds keep_option).1.rows
          df.rows) ∧
    (∀ (score : String → String → String → ℚ) (df : DF) (columns : List (String × String))
      (thresholds : String → ℚ),
      ∀ g ∈ (similarity_based_deduplication score df columns thresholds "first").2,
        (∀ x ∈ g, g.headD 0 ≤ x) ∧
        g.headD 0 ∉ removedIndices "first"
          (similarity_based_deduplication score df columns thresholds "first").2 ∧
        (∀ x ∈ g, x ≠ g.headD 0 → x ∈ removedIndices "first"
          (similarity_based_deduplication score df columns thresholds "first").2)) ∧
    (∀ (score : String → String → String → ℚ) (df : DF) (columns : List (String × String))
      (thresholds : String → ℚ),
      ∀ g ∈ (similarity_based_deduplication score df columns thresholds "last").2,
        (∀ x ∈ g, x ≤ g.getLastD 0) ∧
        g.getLastD 0 ∉ removedIndices "last"
          (similarity_based_deduplication score df columns thresholds "last").2 ∧
        (∀ x ∈ g, x ≠ g.getLastD 0 → x ∈ removedIndices "last"
          (similarity_based_deduplication score df columns thresholds "last").2)) ∧
    (∀ (score : String → String → String → ℚ) (df : DF) (columns : List (String × String))
      (thresholds : String → ℚ) (keep_option : String),
      keep_option ≠ "first" → keep_option ≠ "last" →
        (similarity_based_deduplication score df columns thresholds keep_option).1.rows =
          df.rows) ∧
    (∀ (df : List (Nat × Row)) (keys : List String) (out : List (Nat × Row)),
      df.Pairwise (fun p q => p.1 < q.1) →
      deduplicate_dataframe df keys "first" = some out →
        List.Sublist out df ∧ ∀ p : Nat × Row,
          (p ∈ out ↔ p ∈ df ∧ ∀ q ∈ df, rowKey keys q = rowKey keys p → p.1 ≤ q.1)) ∧
    (∀ (df : List (Nat × Row)) (keys : List String) (out : List (Nat × Row)),
      df.Pairwise (fun p q => p.1 < q.1) →
      deduplicate_dataframe df keys "last" = some out →
        List.Sublist out df ∧ ∀ p : Nat × Row,
          (p ∈ out ↔ p ∈ df ∧ ∀ q ∈ df, rowKey keys q = rowKey keys p → q.1 ≤ p.1)) := by
  refine ⟨sbd_rows_sublist, ?_, ?_, ?_, ?_, ?_⟩
  · intro score df columns thresholds g hg
    obtain ⟨-, h2, -, -, -, -⟩ := grouping_output_inv score df columns thresholds "first"
    exact ⟨headD_le_of_pairwise_lt (h2 g hg),
      (sbd_first_survivors score df columns thresholds g hg).1,
      (sbd_first_survivors score df columns thresholds g hg).2⟩
  · intro score df columns thresholds g hg
    obtain ⟨-, h2, -, -, -, -⟩ := grouping_output_inv score df columns thresholds "last"
    exact ⟨le_getLastD_of_pairwise_lt (h2 g hg),
      (sbd_last_survivors score df columns thresholds g hg).1,
      (sbd_last_survivors score df columns thresholds g hg).2⟩
  · intro score df columns thresholds keep_option h1 h2
    exact sbd_other_keep score df columns thresholds h1 h2
  · intro df keys out hpw hded
    unfold deduplicate_dataframe at hded
    rw [if_pos rfl] at hded
    have hout : out = dropDupFirstAux (rowKey keys) [] df := (Option.some.injEq _ _).mp hded.symm
    subst hout
    exact ⟨dropDupFirstAux_sublist (rowKey keys) df [],
      fun p => mem_dropDupFirstAux_iff (rowKey keys) Prod.fst hpw p⟩
  · intro df keys out hpw hded
    unfold deduplicate_dataframe at hded
    rw [if_neg (by decide), if_pos rfl] at hded
    have hout : out = dropDupLast (rowKey keys) df := (Option.some.injEq _ _).mp hded.symm
    subst hout
    exact ⟨dropDupLast_sublist (rowKey keys) df,
      fun p => mem_dropDupLast_iff (rowKey keys) Prod.fst hpw p⟩

theorem claim_C3_keep_policy_witness :
    ((0, [("k", "a")]) : Nat × Row) ∈
      dropDupFirstAux (rowKey ["k"]) []
        [(0, [("k", "a")]), (1, [("k", "a")]), (2, [("k", "b")])] :=
  ((claim_C3_keep_policy.2.2.2.2.1
      [(0, [("k", "a")]), (1, [("k", "a")]), (2, [("k", "b")])] ["k"]
      (dropDupFirstAux (rowKey ["k"]) []
        [(0, [("k", "a")]), (1, [("k", "a")]), (2, [("k", "b")])])
      (by decide) rfl).2 (0, [("k", "a")])).mpr ⟨by decide, by decide⟩

/-! ### Idempotence of exact dedup -/

theorem dropDupFirstAux_idem {α β : Type} [DecidableEq β] (key : α → β) :
    ∀ (l : List α) (seen : List β),
      dropDupFirstAux key seen (dropDupFirstAux key seen l) = dropDupFirstAux key seen l := by
  intro l
  induction l with
  | nil => intro seen; simp [dropDupFirstAux]
  | cons a t ih =>
    intro seen
    rw [dropDupFirstAux]
    by_cases h : key a ∈ seen
    · rw [if_pos h]
      exact ih seen
    · rw [if_neg h]
      rw [dropDupFirstAux, if_neg h]
      rw [ih (key a :: seen)]

theorem dropDupLast_idem {α β : Type} [DecidableEq β] (key : α → β) :
    ∀ l : List α, dropDupLast key (dropDupLast key l) = dropDupLast key l := by
  intro l
  induction l with
  | nil => rfl
  | cons a t ih =>
    rw [dropDupLast]
    by_cases h : key a ∈ t.map key
    · rw [if_pos h]
      exact ih
    · rw [if_neg h]
      rw [dropDupLast]
      have h' : key a ∉ (dropDupLast key t).map key := by
        intro hmem
        obtain ⟨b, hb, hkb⟩ := List.mem_map.mp hmem
        exact h (List.mem_map.mpr ⟨b, (dropDupLast_sublist key t).mem hb, hkb⟩)
      rw [if_neg h', ih]

theorem dropDupAll_idem {α β : Type} [DecidableEq β] (key : α → β) (l : List α) :
    dropDupAll key (dropDupAll key l) = dropDupAll key l := by
  unfold dropDupAll
  apply List.filter_eq_self.mpr
  intro a ha
  have haP := List.of_mem_filter ha
  have h1 : l.countP (fun b => decide (key b = key a)) = 1 := by simpa using haP
  have hle : (l.filter (fun x => decide (l.countP (fun b => decide (key b = key x)) = 1))).countP
      (fun b => decide (key b = key a)) ≤ l.countP (fun b => decide (key b = key a)) :=
    (List.filter_sublist l).countP_le _
  have hpos : 0 < (l.filter (fun x => decide (l.countP (fun b => decide (key b = key x)) = 1))).countP
      (fun b => decide (key b = key a)) :=
    List.countP_pos_iff.mpr ⟨a, ha, by simp⟩
  have heq : (l.filter (fun x => decide (l.countP (fun b => decide (key b = key x)) = 1))).countP
      (fun b => decide (key b = key a)) = 1 := by omega
  simp [heq]

/-- Claim C9: exact dedup is idempotent — whenever
`deduplicate_dataframe df keys keep` succeeds with output `out`, running it
again on `out` with identical keys and keep policy returns `out`
unchanged. -/
theorem claim_C9_exact_dedup_idempotent (df : List (Nat × Row)) (keys : List String)
    (keep_option : String) (out : List (Nat × Row))
    (h : deduplicate_dataframe df keys keep_option = some out) :
    deduplicate_dataframe out keys keep_option = some out := by
  unfold deduplicate_dataframe at h ⊢
  by_cases h1 : keep_option = "first"
  · rw [if_pos h1] at h ⊢
    have hout : out = dropDupFirstAux (rowKey keys) [] df := (Option.some.injEq _ _).mp h.symm
    subst hout
    rw [dropDupFirstAux_idem]
  · rw [if_neg h1] at h ⊢
    by_cases h2 : keep_option = "last"
    · rw [if_pos h2] at h ⊢
      have hout : out = dropDupLast (rowKey keys) df := (Option.some.injEq _ _).mp h.symm
      subst hout
      rw [dropDupLast_idem]
    · rw [if_neg h2] at h ⊢
      by_cases h3 : keep_option = "False"
      · rw [if_pos h3] at h ⊢
        have hout : out = dropDupAll (rowKey keys) df := (Option.some.injEq _ _).mp h.symm
        subst hout
        rw [dropDupAll_idem]
      · rw [if_neg h3] at h
        simp at h

theorem claim_C9_exact_dedup_idempotent_witness :
    deduplicate_dataframe [(0, [("k", "a")])] ["k"] "first" = some [(0, [("k", "a")])] :=
  claim_C9_exact_dedup_idempotent [(0, [("k", "a")]), (1, [("k", "a")])] ["k"] "first"
    [(0, [("k", "a")])] (by decide)

/-! ### Hybrid dispatcher claims -/

/-- Claim C4: if the model provider fails (raises) on every comparison,
`similarity_dedup_with_model` under strategy `always_model` with
`use_model` on returns exactly the dataset and group map of the
metric-backed computation alone (`use_model` off, any model). -/
theorem claim_C4_fallback_equivalence (seg : String → List String)
    (settings : HybridSettings) (model : String → String → Option ℚ) (df : DF)
    (columns : List (String × String)) (thresholds : String → ℚ) (keep_option : String)
    (hstrat : settings.strategy = "always_model") :
    similarity_dedup_with_model seg settings (fun _ _ => none) true
        df columns thresholds keep_option =
      similarity_dedup_with_model seg settings model false
        df columns thresholds keep_option := by
  unfold similarity_dedup_with_model
  have hfn : computeColumnSimilarity seg settings (fun _ _ => none) true =
      computeColumnSimilarity seg settings model false := by
    funext simMethod t1 t2
    simp [computeColumnSimilarity, hstrat]
  rw [hfn]

theorem claim_C4_fallback_equivalence_witness :
    similarity_dedup_with_model (fun s => [s]) ⟨"always_model", 0, 0⟩ (fun _ _ => none) true
        ⟨["name"], [[("name", "a")], [("name", "a")]]⟩
        [("name", "levenshtein")] (fun _ => 0) "first" =
      similarity_dedup_with_model (fun s => [s]) ⟨"always_model", 0, 0⟩ (fun _ _ => some 1) false
        ⟨["name"], [[("name", "a")], [("name", "a")]]⟩
        [("name", "levenshtein")] (fun _ => 0) "first" :=
  claim_C4_fallback_equivalence (fun s => [s]) ⟨"always_model", 0, 0⟩ (fun _ _ => some 1)
    ⟨["name"], [[("name", "a")], [("name", "a")]]⟩
    [("name", "levenshtein")] (fun _ => 0) "first" rfl

/-- Claim C8: under strategy `basic_then_model` with prefilter threshold
`p`, when the metric score of a comparison is strictly below `p`, the
model is never consulted (the result does not depend on `model` at all)
and the final score for that comparison is the metric score. -/
theorem claim_C8_prefilter_short_circuit (seg : String → List String)
    (settings : HybridSettings) (model : String → String → Option ℚ)
    (simMethod text1 text2 : String)
    (hstrat : settings.strategy = "basic_then_model")
    (hlt : calculate_basic_similarity seg simMethod text1 text2 < settings.prefilterThreshold) :
    computeColumnSimilarity seg settings model true simMethod text1 text2 =
      calculate_basic_similarity seg simMethod text1 text2 := by
  simp [computeColumnSimilarity, hstrat, not_le.mpr hlt]

theorem claim_C8_prefilter_short_circuit_witness :
    computeColumnSimilarity (fun s => [s]) ⟨"basic_then_model", 1, 0⟩ (fun _ _ => some 1) true
        "levenshtein" "ab" "" =
      calculate_basic_similarity (fun s => [s]) "levenshtein" "ab" "" :=
  claim_C8_prefilter_short_circuit (fun s => [s]) ⟨"basic_then_model", 1, 0⟩
    (fun _ _ => some 1) "levenshtein" "ab" "" rfl (by decide)

/-! ### Threshold boundary behaviour -/

theorem foldl_groupStep_skip (sim : Nat → Nat → Bool) (n : ℕ) :
    ∀ (l : List ℕ) (st : GroupState), (∀ i ∈ l, i ∈ st.claimed) →
      l.foldl (groupStep sim n) st = st := by
  intro l
  induction l with
  | nil => intro st _; rfl
  | cons a t ih =>
    intro st h
    rw [List.foldl_cons]
    have hstep : groupStep sim n st a = st := by
      unfold groupStep
      rw [if_pos (h a (by simp))]
    rw [hstep]
    exact ih st (fun i hi => h i (by simp [hi]))

theorem range_eq_cons {n : ℕ} (h : 1 ≤ n) : List.range n = 0 :: List.range' 1 (n - 1) := by
  rw [List.range_eq_range']
  cases n with
  | zero => omega
  | succ m => rfl

/-- When every pair is judged similar, the first anchor absorbs the whole
dataset and the run records exactly one group holding every index. -/
theorem runGrouping_all_true {sim : Nat → Nat → Bool} {n : ℕ}
    (h : ∀ i j, sim i j = true) (hn : 2 ≤ n) :
    (runGrouping sim n).groups = [List.range n] := by
  unfold runGrouping
  rw [range_eq_cons (by omega), List.foldl_cons]
  have hscan : candidateScan sim [] 0 n = List.range' 1 (n - 1) := by
    unfold candidateScan
    apply List.filter_eq_self.mpr
    intro j hj
    simp [h 0 j]
  have hlen : 1 < (0 :: List.range' 1 (n - 1)).length := by
    simp only [List.length_cons, List.length_range']
    omega
  have hstep : groupStep sim n ⟨[], []⟩ 0 =
      ⟨List.range' 1 (n - 1), [0 :: List.range' 1 (n - 1)]⟩ := by
    unfold groupStep
    rw [if_neg (by simp)]
    simp only [hscan, hlen, if_pos]
    simp
  rw [hstep, foldl_groupStep_skip sim n (List.range' 1 (n - 1)) _ (fun i hi => hi)]

/-- Claim C7: threshold boundaries for a single edit-distance column that
is present in the dataset.  With threshold `1.0`, any two rows grouped
together have identical normalized strings in that column; with threshold
`0.0` on a dataset of at least two rows, the group map is exactly one
group holding every record index. -/
theorem claim_C7_threshold_boundary :
    (∀ (seg : String → List String) (df : DF) (c : String) (keep_option : String),
      c ∈ df.cols →
      ∀ g ∈ (similarity_based_deduplication (calculate_basic_similarity seg) df
          [(c, "levenshtein")] (fun _ => 1) keep_option).2,
        ∀ x ∈ g, ∀ y ∈ g,
          preprocessChars (cellText df x c).toList =
            preprocessChars (cellText df y c).toList) ∧
    (∀ (seg : String → List String) (df : DF) (c : String) (keep_option : String),
      2 ≤ df.rows.length →
      (similarity_based_deduplication (calculate_basic_similarity seg) df
          [(c, "levenshtein")] (fun _ => 0) keep_option).2 =
        [List.range df.rows.length]) := by
  constructor
  · intro seg df c keep_option hc g hg x hx y hy
    obtain ⟨h1, -, -, -, -, h6⟩ := grouping_output_inv (calculate_basic_similarity seg) df
      [(c, "levenshtein")] (fun _ => 1) keep_option
    have hanchor : ∀ z ∈ g, preprocessChars (cellText df z c).toList =
        preprocessChars (cellText df (g.headD 0) c).toList := by
      intro z hz
      rcases g with _ | ⟨a, t⟩
      · simp at hz
      · simp only [List.headD_cons]
        rcases List.mem_cons.mp hz with rfl | hzt
        · rfl
        · have hpair := h6 _ hg z (by simpa using hzt)
          simp only [List.headD_cons, List.tail_cons] at hpair
          have hscore := (pairSimilar_eq_true_iff _ _ _ _ _ _).mp hpair
            (c, "levenshtein") (by simp) hc
          simp only [calculate_basic_similarity, if_pos rfl] at hscore
          exact (levenshtein_similarity_eq_one hscore).symm
    exact (hanchor x hx).trans (hanchor y hy).symm
  · intro seg df c keep_option hn
    rw [similarity_based_deduplication_snd]
    have hne : ¬df.rows.isEmpty = true := by
      rw [List.isEmpty_iff]
      intro he
      rw [he] at hn
      simp at hn
    rw [if_neg hne]
    have hsim : ∀ i j, pairSimilar (calculate_basic_similarity seg) df
        [(c, "levenshtein")] (fun _ => 0) i j = true := by
      intro i j
      apply (pairSimilar_eq_true_iff _ _ _ _ _ _).mpr
      intro cm hcm _
      have hceq : cm = (c, "levenshtein") := by simpa using hcm
      subst hceq
      simp only [calculate_basic_similarity, if_pos rfl]
      exact (levenshtein_similarity_bounds _ _).1
    exact runGrouping_all_true hsim hn

theorem claim_C7_threshold_boundary_witness :
    (similarity_based_deduplication (calculate_basic_similarity (fun s => [s]))
        ⟨["name"], [[("name", "x")], [("name", "y")]]⟩
        [("name", "levenshtein")] (fun _ => 0) "none").2 = [List.range 2] ∧
    preprocessChars (cellText ⟨["name"], [[("name", "")], [("name", "")]]⟩ 0 "name").toList =
      preprocessChars (cellText ⟨["name"], [[("name", "")], [("name", "")]]⟩ 1 "name").toList :=
  ⟨claim_C7_threshold_boundary.2 (fun s => [s])
      ⟨["name"], [[("name", "x")], [("name", "y")]]⟩ "name" "none" (by decide),
   claim_C7_threshold_boundary.1 (fun s => [s])
      ⟨["name"], [[("name", "")], [("name", "")]]⟩ "name" "none" (by decide)
      [0, 1] (by decide) 0 (by decide) 1 (by decide)⟩

/-! ### Model service error handling (`core/model_inference.py`) -/

/-- A loaded model wrapper (`TorchModelWrapper` / `LightModelWrapper`):
`encode` embeds `encode_text`, which re-raises on any internal failure
(`none`); `cos` embeds `_cosine_similarity`, which is total (it guards
zero norms itself and involves no failing operation).  The numeric
content of cosine over float vectors is abstracted; the error routing of
the wrappers is what is modelled. -/
structure ModelWrapperM where
  encode : String → Option (List ℚ)
  cos : List ℚ → List ℚ → ℚ

/-- Embedding of `TorchModelWrapper.calculate_similarity` and
`LightModelWrapper.calculate_similarity` (their bodies are identical):
encode both texts and rescale cosine to `[0,1]`; any exception raised
inside the `try` block is caught and turned into the score `0.0`. -/
def wrapper_calculate_similarity (w : ModelWrapperM) (text1 text2 : String) : ℚ :=
  match w.encode text1 with
  | none => 0
  | some v1 =>
    match w.encode text2 with
    | none => 0
    | some v2 => (w.cos v1 v2 + 1) / 2

/-- Embedding of the `ModelService` state: the downloaded models of its
manager, and `get_model_wrapper`, which yields `none` when the model is
unknown, not downloaded, or fails to load. -/
structure ModelServiceM where
  downloadedModels : List String
  getModelWrapper : String → Option ModelWrapperM

/-- Embedding of `ModelService.calculate_similarity`: with no model id,
fall back to the first downloaded model, returning `0.0` if there is
none; if the wrapper cannot be obtained return `0.0`; otherwise delegate
to the wrapper.  The return type is `ℚ`, not `Option ℚ`: every failure
path of the source returns a plain score and no exception escapes. -/
def ModelService_calculate_similarity (svc : ModelServiceM) (text1 text2 : String)
    (model_id : Option String) : ℚ :=
  let mid? := match model_id with
    | none => svc.downloadedModels.head?
    | some m => some m
  match mid? with
  | none => 0
  | some mid =>
    match svc.getModelWrapper mid with
    | none => 0
    | some w => wrapper_calculate_similarity w text1 text2

/-- Claim C10: `ModelService.calculate_similarity` never propagates an
exception — it is a total function into scores — and each failure path
(no available model, wrapper not obtainable, encoding failure inside a
wrapper) yields the score `0.0`.  Consequently a model function built
from this service always returns a value (`some`), so the exception-based
metric fallback of the grouping loop is never triggered through it. -/
theorem claim_C10_model_service_error_handling (svc : ModelServiceM) (w : ModelWrapperM)
    (text1 text2 : String) (mid : String) :
    (svc.downloadedModels = [] →
      ModelService_calculate_similarity svc text1 text2 none = 0) ∧
    (svc.getModelWrapper mid = none →
      ModelService_calculate_similarity svc text1 text2 (some mid) = 0) ∧
    (w.encode text1 = none ∨ w.encode text2 = none →
      wrapper_calculate_similarity w text1 text2 = 0) ∧
    (∀ model_id : Option String, ∃ q : ℚ,
      some (ModelService_calculate_similarity svc text1 text2 model_id) = some q) := by
  refine ⟨?_, ?_, ?_, ?_⟩
  · intro h
    simp [ModelService_calculate_similarity, h]
  · intro h
    simp [ModelService_calculate_similarity, h]
  · intro h
    rcases h with h | h
    · simp [wrapper_calculate_similarity, h]
    · cases he : w.encode text1 with
      | none => simp [wrapper_calculate_similarity, he]
      | some v1 => simp [wrapper_calculate_similarity, he, h]
  · intro model_id
    exact ⟨_, rfl⟩

theorem claim_C10_model_service_error_handling_witness :
    ModelService_calculate_similarity ⟨[], fun _ => none⟩ "a" "b" none = 0 ∧
    ModelService_calculate_similarity ⟨[], fun _ => none⟩ "a" "b" (some "m") = 0 ∧
    wrapper_calculate_similarity ⟨fun _ => none, fun _ _ => 0⟩ "a" "b" = 0 :=
  ⟨(claim_C10_model_service_error_handling ⟨[], fun _ => none⟩
      ⟨fun _ => none, fun _ _ => 0⟩ "a" "b" "m").1 rfl,
   (claim_C10_model_service_error_handling ⟨[], fun _ => none⟩
      ⟨fun _ => none, fun _ _ => 0⟩ "a" "b" "m").2.1 rfl,
   (claim_C10_model_service_error_handling ⟨[], fun _ => none⟩
      ⟨fun _ => none, fun _ _ => 0⟩ "a" "b" "m").2.2.1 (Or.inl rfl)⟩
